import Mathlib

/-!
Shallow embedding of `pyglet/clock.py` (the `Clock` class: framerate
measurement, framerate limiting and callback scheduling).

Modelling conventions:
* Python floats are modelled as `ℚ` (exact arithmetic; none of the verified
  properties depends on rounding).
* A callback is identified by a `Nat` tag (`func`); its extra positional and
  keyword arguments are collapsed into an opaque `Nat` tag (`args`).
* `ScheduledIntervalItem` objects are compared by identity in Python; the
  model gives each one a unique `uid` drawn from a counter on the clock.
* The injected time function is modelled by passing each reading explicitly:
  `Clock.tick` takes the timestamp that `self.time()` returns, and
  `limitRun` consumes a finite trace of readings (returning `none` when the
  trace is exhausted before a loop finishes).
* Calling a Python callback is modelled by recording an event
  (`TickEvent` / `IntervalEvent`) carrying the `dt` argument it would get.
* `Clock.unschedule` returns `Except String Clock`; the `error` case models
  the `UnboundLocalError` that the source raises on the code path that
  reads the never-assigned local variable `item`.
-/

namespace PygletClock

/-- MIN_SLEEP constant of `Clock` (seconds). -/
def MIN_SLEEP : ℚ := 5 / 1000

/-- SLEEP_UNDERSHOOT constant of `Clock` (seconds). -/
def SLEEP_UNDERSHOOT : ℚ := MIN_SLEEP - 1 / 1000

/-- Embeds class `ScheduledIntervalItem` (func, interval, last_ts, next_ts,
args, kwargs).  `uid` models Python object identity. -/
structure ScheduledIntervalItem where
  uid : Nat
  func : Nat
  interval : ℚ
  last_ts : ℚ
  next_ts : ℚ
  args : Nat
  deriving DecidableEq, Repr

/-- Embeds the `(func, args, kwargs)` tuples stored in `Clock.schedule_items`. -/
structure PerTickItem where
  func : Nat
  args : Nat
  deriving DecidableEq, Repr

/-- A value stored (directly or inside a list) in `Clock.schedule_functions`:
either a per-tick tuple or an interval item. -/
inductive Reg where
  | tick : PerTickItem → Reg
  | interval : ScheduledIntervalItem → Reg
  deriving DecidableEq, Repr

/-- A `Clock.schedule_functions` dict value: the source stores either a single
registration or a list of registrations ("single or list" duck typing). -/
inductive Entry where
  | single : Reg → Entry
  | list : List Reg → Entry
  deriving DecidableEq, Repr

/-- Dict lookup on the `schedule_functions` mapping (modelled as an
association list keyed by callback identity). -/
def lookupIndex (idx : List (Nat × Entry)) (f : Nat) : Option Entry :=
  (idx.find? (fun kv => kv.1 == f)).map (fun kv => kv.2)

/-- Dict assignment `self.schedule_functions[func] = e`. -/
def setIndex (idx : List (Nat × Entry)) (f : Nat) (e : Entry) : List (Nat × Entry) :=
  if idx.any (fun kv => kv.1 == f) then
    idx.map (fun kv => if kv.1 == f then (f, e) else kv)
  else idx ++ [(f, e)]

/-- Dict deletion `del self.schedule_functions[func]`. -/
def delIndex (idx : List (Nat × Entry)) (f : Nat) : List (Nat × Entry) :=
  idx.filter (fun kv => kv.1 != f)

/-- The "add item to func mapping" block shared by `Clock.schedule` and
`Clock.schedule_item`: a fresh key maps to the single item, a second
registration turns the value into a two-element list, later ones append. -/
def addToIndex (idx : List (Nat × Entry)) (f : Nat) (r : Reg) : List (Nat × Entry) :=
  match lookupIndex idx f with
  | some (Entry.list es) => setIndex idx f (Entry.list (es ++ [r]))
  | some (Entry.single e) => setIndex idx f (Entry.list [e, r])
  | none => setIndex idx f (Entry.single r)

/-- State of a `Clock` instance.  `uid_counter` is the model's source of
fresh identities for `ScheduledIntervalItem`s. -/
structure Clock where
  next_ts : ℚ
  last_ts : Option ℚ
  times : List ℚ
  cumulative_time : ℚ
  period_limit : Option ℚ
  window_size : ℚ
  schedule_items : List PerTickItem
  schedule_interval_items : List ScheduledIntervalItem
  schedule_functions : List (Nat × Entry)
  uid_counter : Nat
  deriving DecidableEq, Repr

/-- Embeds `Clock.set_fps_limit`.  `not fps_limit` is Python truthiness:
both `None` and `0` disable limiting; `self.window_size = fps_limit or 60`. -/
def Clock.set_fps_limit (st : Clock) (fps_limit : Option ℚ) : Clock :=
  { st with
    period_limit :=
      match fps_limit with
      | none => none
      | some r => if r = 0 then none else some (1 / r)
    window_size :=
      match fps_limit with
      | none => 60
      | some r => if r = 0 then 60 else r }

/-- Embeds `Clock.__init__`: `next_ts` is the construction-time reading of the
time function (`t0`), `last_ts` is `None`, then `set_fps_limit` runs. -/
def Clock.init (t0 : ℚ) (fps_limit : Option ℚ) : Clock :=
  Clock.set_fps_limit
    { next_ts := t0, last_ts := none, times := [], cumulative_time := 0
      period_limit := none, window_size := 0, schedule_items := []
      schedule_interval_items := [], schedule_functions := [], uid_counter := 0 }
    fps_limit

/-- Embeds `Clock.get_fps_limit` (`if self.period_limit:` is truthiness). -/
def Clock.get_fps_limit (st : Clock) : ℚ :=
  match st.period_limit with
  | some p => if p = 0 then 0 else 1 / p
  | none => 0

/-- Embeds `Clock.get_fps`: `if not self.cumulative_time: return 0`,
otherwise `len(self.times) / self.cumulative_time`. -/
def Clock.get_fps (st : Clock) : ℚ :=
  if st.cumulative_time = 0 then 0
  else (st.times.length : ℚ) / st.cumulative_time

/-- A recorded invocation of a per-tick callback (`func(delta_t, ...)`). -/
structure TickEvent where
  func : Nat
  args : Nat
  dt : ℚ
  deriving DecidableEq, Repr

/-- A recorded invocation of an interval callback
(`item.func(ts - item.last_ts, ...)`). -/
structure IntervalEvent where
  uid : Nat
  func : Nat
  dt : ℚ
  deriving DecidableEq, Repr

/-- The interval-item due test in `Clock.tick`: the loop body runs unless
`item.next_ts > ts` breaks out. -/
def isDue (ts : ℚ) (it : ScheduledIntervalItem) : Bool :=
  it.next_ts ≤ ts

/-- The in-place mutation of a fired item in `Clock.tick`: a repeating item
(`if item.interval:`) gets `last_ts = ts` and
`next_ts = max(item.next_ts + item.interval, ts + 0.01)`; a one-shot
(interval `0`) is left unchanged. -/
def fireUpdate (ts : ℚ) (it : ScheduledIntervalItem) : ScheduledIntervalItem :=
  if it.interval ≠ 0 then
    { it with last_ts := ts, next_ts := max (it.next_ts + it.interval) (ts + 1 / 100) }
  else it

/-- The callback invocation of a fired interval item: `dt = ts - item.last_ts`
(computed before `last_ts` is overwritten). -/
def mkIntervalEvent (ts : ℚ) (it : ScheduledIntervalItem) : IntervalEvent :=
  { uid := it.uid, func := it.func, dt := ts - it.last_ts }

/-- The `for item in self.schedule_interval_items` loop of `Clock.tick`:
walks from the front, breaks at the first item with `next_ts > ts`, fires
the rest and mutates fired repeating items; the `Bool` is `need_resort`. -/
def walkItems (ts : ℚ) : List ScheduledIntervalItem →
    List ScheduledIntervalItem × List IntervalEvent × Bool
  | [] => ([], [], false)
  | it :: rest =>
    if it.next_ts > ts then (it :: rest, [], false)
    else
      let r := walkItems ts rest
      (fireUpdate ts it :: r.1, mkIntervalEvent ts it :: r.2.1,
        (decide (it.interval ≠ 0) || r.2.2))

/-- Comparison key of `self.schedule_interval_items.sort(key=lambda a: a.next_ts)`. -/
def leNext (a b : ScheduledIntervalItem) : Prop := a.next_ts ≤ b.next_ts

instance : DecidableRel leNext :=
  fun a b => inferInstanceAs (Decidable (a.next_ts ≤ b.next_ts))

instance : IsTotal ScheduledIntervalItem leNext :=
  ⟨fun a b => le_total a.next_ts b.next_ts⟩

instance : IsTrans ScheduledIntervalItem leNext :=
  ⟨fun _ _ _ h h2 => le_trans h h2⟩

/-- The list re-sort at the end of `Clock.tick`: Python `list.sort` is a
stable sort by `next_ts`, modelled by a stable insertion sort. -/
def sortByNextTs (l : List ScheduledIntervalItem) : List ScheduledIntervalItem :=
  List.insertionSort leNext l

/-- Ascending `next_ts` order (the documented invariant of
`schedule_interval_items`). -/
def SortedItems (l : List ScheduledIntervalItem) : Prop :=
  l.Pairwise leNext

/-- The whole interval-dispatch part of `Clock.tick` (lines 238-259): walk
and fire, filter out items with `next_ts <= ts` ("remove finished
one-shots"), re-sort when a repeating item moved. -/
def tickIntervals (ts : ℚ) (items : List ScheduledIntervalItem) :
    List ScheduledIntervalItem × List IntervalEvent :=
  let w := walkItems ts items
  let kept := w.1.filter (fun it => ts < it.next_ts)
  (if w.2.2 then sortByNextTs kept else kept, w.2.1)

/-- Result of one `Clock.tick` call: the new state, the returned `delta_t`,
and the recorded callback invocations of both kinds. -/
structure TickResult where
  state : Clock
  delta : ℚ
  tickEvents : List TickEvent
  intervalEvents : List IntervalEvent
  deriving DecidableEq, Repr

/-- Embeds `Clock.tick` for the reading `ts` returned by `self.time()`.
The first branch is `self.last_ts is None` (first frame, `delta_t = 0`,
nothing pushed into the window); otherwise the delta is pushed at the front
of `self.times`, the oldest entry is popped when the window exceeds
`self.window_size`, and `cumulative_time` is maintained incrementally.
The rate-limiter call at the top of the source (`if self.period_limit:
self.limit()`) only rewrites `next_ts` and consumes time; it is modelled
separately by `limitRun` / `Clock.tickFull`. -/
def Clock.tick (st : Clock) (ts : ℚ) : TickResult :=
  match st.last_ts with
  | none =>
    let ires := tickIntervals ts st.schedule_interval_items
    { state :=
        { st with
          last_ts := some ts
          cumulative_time := st.cumulative_time + 0
          schedule_interval_items := ires.1 }
      delta := 0
      tickEvents := st.schedule_items.map (fun it => { func := it.func, args := it.args, dt := 0 })
      intervalEvents := ires.2 }
  | some lt =>
    let delta := ts - lt
    let pushed := delta :: st.times
    let tc : List ℚ × ℚ :=
      if st.window_size < (pushed.length : ℚ) then
        (pushed.dropLast, st.cumulative_time - pushed.getLastD 0)
      else (pushed, st.cumulative_time)
    let ires := tickIntervals ts st.schedule_interval_items
    { state :=
        { st with
          last_ts := some ts
          times := tc.1
          cumulative_time := tc.2 + delta
          schedule_interval_items := ires.1 }
      delta := delta
      tickEvents := st.schedule_items.map (fun it => { func := it.func, args := it.args, dt := delta })
      intervalEvents := ires.2 }

/-- The baseline `last_ts = self.last_ts or self.next_ts` of
`Clock.schedule_item`: Python `or` falls through to `next_ts` both when
`last_ts` is `None` and when it is the (falsy) timestamp `0`. -/
def Clock.schedBaseline (st : Clock) : ℚ :=
  match st.last_ts with
  | none => st.next_ts
  | some l => if l = 0 then st.next_ts else l

/-- The "insert in sort order" loop of `Clock.schedule_item`: insert before
the first existing item with strictly larger `next_ts`.  Returns `none`
when the loop falls through (the item belongs at the end): in the source
that path `append`s and then also updates the func mapping, while an early
`return` from inside the loop skips the mapping update. -/
def insertEarly (item : ScheduledIntervalItem) :
    List ScheduledIntervalItem → Option (List ScheduledIntervalItem)
  | [] => none
  | other :: rest =>
    if item.next_ts < other.next_ts then some (item :: other :: rest)
    else (insertEarly item rest).map (fun l => other :: l)

/-- The complete insertion position of a new item (early insertion or
append at the end). -/
def insertSorted (item : ScheduledIntervalItem) (l : List ScheduledIntervalItem) :
    List ScheduledIntervalItem :=
  match insertEarly item l with
  | some l2 => l2
  | none => l ++ [item]

/-- The `ScheduledIntervalItem` that one `Clock.schedule_item` call creates
(fields as assigned by the source before the insertion loop runs). -/
def newItem (st : Clock) (func : Nat) (interval : ℚ) (rep : Bool) (args : Nat) :
    ScheduledIntervalItem :=
  { uid := st.uid_counter, func := func
    interval := if rep then interval else 0
    last_ts := st.schedBaseline
    next_ts := st.schedBaseline + interval
    args := args }

/-- Embeds `Clock.schedule_item`.  The new item's fields are those assigned
by the source (`newItem`); note the faithful early `return`: when the item
is inserted before an existing one, the function returns without executing
the "add item to func mapping" block, so the item is never recorded in
`schedule_functions`. -/
def Clock.schedule_item (st : Clock) (func : Nat) (interval : ℚ) (rep : Bool) (args : Nat) : Clock :=
  let item := newItem st func interval rep args
  match insertEarly item st.schedule_interval_items with
  | some l2 =>
    { st with schedule_interval_items := l2, uid_counter := st.uid_counter + 1 }
  | none =>
    { st with
      schedule_interval_items := st.schedule_interval_items ++ [item]
      schedule_functions := addToIndex st.schedule_functions func (Reg.interval item)
      uid_counter := st.uid_counter + 1 }

/-- Embeds `Clock.schedule_interval` (`repeat=True`). -/
def Clock.schedule_interval (st : Clock) (func : Nat) (interval : ℚ) (args : Nat) : Clock :=
  st.schedule_item func interval true args

/-- Embeds `Clock.schedule_once` (`repeat=False`). -/
def Clock.schedule_once (st : Clock) (func : Nat) (delay : ℚ) (args : Nat) : Clock :=
  st.schedule_item func delay false args

/-- Embeds `Clock.schedule`: append the `(func, args, kwargs)` tuple and
record it in the func mapping. -/
def Clock.schedule (st : Clock) (func : Nat) (args : Nat) : Clock :=
  let item : PerTickItem := { func := func, args := args }
  { st with
    schedule_items := st.schedule_items ++ [item]
    schedule_functions := addToIndex st.schedule_functions func (Reg.tick item) }

/-- Python `item in self.schedule_items`: tuples compare by value; a
`ScheduledIntervalItem` never equals a tuple. -/
def regInTickList (r : Reg) (l : List PerTickItem) : Bool :=
  match r with
  | Reg.tick t => l.contains t
  | Reg.interval _ => false

/-- Python `item in self.schedule_interval_items`: interval items compare by
identity (`uid`); a tuple never equals a `ScheduledIntervalItem`. -/
def regInIntervalList (r : Reg) (l : List ScheduledIntervalItem) : Bool :=
  match r with
  | Reg.tick _ => false
  | Reg.interval it => l.any (fun x => x.uid == it.uid)

/-- One iteration of the `for item in items` removal loop in
`Clock.unschedule` (the branch where the dict value is a list). -/
def removeReg (st : Clock) (r : Reg) : Clock :=
  if regInTickList r st.schedule_items then
    match r with
    | Reg.tick t => { st with schedule_items := st.schedule_items.erase t }
    | Reg.interval _ => st
  else if regInIntervalList r st.schedule_interval_items then
    match r with
    | Reg.interval it =>
      { st with schedule_interval_items :=
          st.schedule_interval_items.eraseP (fun x => x.uid == it.uid) }
    | Reg.tick _ => st
  else st

/-- Embeds `Clock.unschedule`.  In the single-registration branch the source
reads `elif item in self.schedule_interval_items`, but the local variable
`item` is only bound by the `for` loop of the other branch, so whenever the
single registration is not found in `schedule_items` (in particular for
every interval/one-shot registration) the call raises `UnboundLocalError`,
modelled as `Except.error`. -/
def Clock.unschedule (st : Clock) (func : Nat) : Except String Clock :=
  match lookupIndex st.schedule_functions func with
  | none => Except.ok st
  | some (Entry.list rs) =>
    let st2 := rs.foldl removeReg st
    Except.ok { st2 with schedule_functions := delIndex st2.schedule_functions func }
  | some (Entry.single r) =>
    match r with
    | Reg.tick t =>
      if st.schedule_items.contains t then
        Except.ok
          { st with
            schedule_items := st.schedule_items.erase t
            schedule_functions := delIndex st.schedule_functions func }
      else Except.error "UnboundLocalError: local variable referenced before assignment"
    | Reg.interval _ =>
      Except.error "UnboundLocalError: local variable referenced before assignment"

/-- One reading of the injected time function, consumed from a finite trace. -/
def readTime : List ℚ → Option (ℚ × List ℚ)
  | [] => none
  | t :: r => some (t, r)

/-- The coarse sleep loop of `Clock.limit`:
`while sleeptime - SLEEP_UNDERSHOOT > MIN_SLEEP: sleep(...); sleeptime =
next_ts - time()`.  Each iteration consumes one time reading; `none` when
the trace runs out first. -/
def sleepPhase (next_ts : ℚ) : List ℚ → ℚ → Option (List ℚ)
  | [], sleeptime =>
    if sleeptime - SLEEP_UNDERSHOOT > MIN_SLEEP then none else some []
  | t :: r, sleeptime =>
    if sleeptime - SLEEP_UNDERSHOOT > MIN_SLEEP then sleepPhase next_ts r (next_ts - t)
    else some (t :: r)

/-- The busy-wait loop of `Clock.limit`: `while sleeptime > 0: sleeptime =
next_ts - time()`.  Returns the final (non-positive) `sleeptime`. -/
def busyPhase (next_ts : ℚ) : List ℚ → ℚ → Option (ℚ × List ℚ)
  | [], sleeptime =>
    if sleeptime > 0 then none else some (sleeptime, [])
  | t :: r, sleeptime =>
    if sleeptime > 0 then busyPhase next_ts r (next_ts - t)
    else some (sleeptime, t :: r)

/-- Embeds `Clock.limit` over a trace of time readings.  Returns the new
`next_ts` together with two locals of the source exposed for
specification: the final `sleeptime` and the entry reading
`ts = self.time()` taken at the top of the method (the reset branch uses
`ts`, not a post-wait reading). -/
def limitRun (period_limit next_ts : ℚ) (tr : List ℚ) : Option (ℚ × ℚ × ℚ × List ℚ) := do
  let (ts, tr1) ← readTime tr
  let (t1, tr2) ← readTime tr1
  let tr3 ← sleepPhase next_ts tr2 (next_ts - t1)
  let (t2, tr4) ← readTime tr3
  let (sleeptime, tr5) ← busyPhase next_ts tr4 (next_ts - t2)
  some (if sleeptime < -2 * period_limit then ts + 2 * period_limit
        else next_ts + period_limit,
        sleeptime, ts, tr5)

/-- `Clock.limit` acting on a clock state. -/
def Clock.limit (st : Clock) (tr : List ℚ) : Option (Clock × List ℚ) :=
  match st.period_limit with
  | none => none
  | some p =>
    (limitRun p st.next_ts tr).map (fun r => ({ st with next_ts := r.1 }, r.2.2.2))

/-- Embeds a full `Clock.tick` call including the `if self.period_limit:
self.limit()` prologue (Python truthiness: `period_limit` of `None` or `0`
skips the limiter), drawing all time readings from a trace. -/
def Clock.tickFull (st : Clock) (tr : List ℚ) : Option (TickResult × List ℚ) :=
  let doLimit : Bool :=
    match st.period_limit with
    | some p => p != 0
    | none => false
  if doLimit then do
    let (st2, tr2) ← st.limit tr
    let (ts, tr3) ← readTime tr2
    some (Clock.tick st2 ts, tr3)
  else do
    let (ts, tr2) ← readTime tr
    some (Clock.tick st ts, tr2)

/-- Drive a clock through a sequence of ticks whose `self.time()` readings
are given; collects the interval-callback invocations of each tick. -/
def runTicks (st : Clock) : List ℚ → Clock × List (List IntervalEvent)
  | [] => (st, [])
  | ts :: rest =>
    let r := Clock.tick st ts
    let rr := runTicks r.state rest
    (rr.1, r.intervalEvents :: rr.2)

/-- Inter-tick deltas of a sequence of tick timestamps
(`d_k = ts_(k+1) - ts_k`; the first tick contributes no delta). -/
def rawDeltas : List ℚ → List ℚ
  | [] => []
  | [_] => []
  | a :: b :: rest => (b - a) :: rawDeltas (b :: rest)

/-- Independent recomputation of the sliding window from the raw timestamp
sequence: the most recent `W` deltas, newest first. -/
def windowSpec (W : Nat) (tss : List ℚ) : List ℚ :=
  ((rawDeltas tss).reverse).take W

/-- The firing pattern of a one-shot item due at time `due`, per tick of a
run: `1` at the first tick whose reading is `≥ due`, `0` everywhere else. -/
def oneShotFiringPattern (due : ℚ) : List ℚ → List Nat
  | [] => []
  | ts :: rest =>
    if due ≤ ts then 1 :: rest.map (fun _ => 0)
    else 0 :: oneShotFiringPattern due rest

/-- Number of recorded invocations of the interval item with identity `u`. -/
def evCount (u : Nat) (evs : List IntervalEvent) : Nat :=
  evs.countP (fun e => e.uid == u)

/-- Identities of the items in an interval list. -/
def itemUids (l : List ScheduledIntervalItem) : List Nat :=
  l.map (fun it => it.uid)

/-- A clock on which callback 1 (due at 10) was registered first and
callback 2 (due at 5) second: the second registration takes the
early-`return` path of `schedule_item` and is therefore absent from
`schedule_functions`. -/
def c1clock : Clock :=
  Clock.schedule_once (Clock.schedule_once (Clock.init 0 none) 1 10 0) 2 5 0

/-- Scenario invariant for the one-shot claims: the interval collection is
sorted, item identities are distinct, and it holds exactly one item with
identity `u`, which has `interval = 0` and is due at `due`. -/
def OneShotInv (st : Clock) (u : Nat) (due : ℚ) : Prop :=
  SortedItems st.schedule_interval_items ∧
  (itemUids st.schedule_interval_items).Nodup ∧
  ∃ it ∈ st.schedule_interval_items, it.uid = u ∧ it.interval = 0 ∧ it.next_ts = due

/-- Run invariant for the FPS-window claims: after consuming the tick
readings `consumed`, the clock state agrees with the independent
recomputation `windowSpec` of the sliding window. -/
def WindowInv (W : Nat) (consumed : List ℚ) (st : Clock) : Prop :=
  st.times = windowSpec W consumed ∧
  st.cumulative_time = (windowSpec W consumed).sum ∧
  st.last_ts = consumed.getLast? ∧
  st.window_size = (W : ℚ)

/-! ### Basic structural lemmas about the interval walk and sorted insertion -/

theorem isDue_iff (ts : ℚ) (it : ScheduledIntervalItem) :
    isDue ts it = true ↔ it.next_ts ≤ ts := by
  simp [isDue]

theorem walkItems_eq (ts : ℚ) (l : List ScheduledIntervalItem) :
    walkItems ts l =
      ((l.takeWhile (isDue ts)).map (fireUpdate ts) ++ l.dropWhile (isDue ts),
       (l.takeWhile (isDue ts)).map (mkIntervalEvent ts),
       (l.takeWhile (isDue ts)).any (fun it => decide (it.interval ≠ 0))) := by
  induction l with
  | nil => simp [walkItems]
  | cons it rest ih =>
    by_cases h : it.next_ts > ts
    · have hd : isDue ts it = false := by simp [isDue]; linarith
      simp [walkItems, h, hd]
    · have hd : isDue ts it = true := by simp [isDue]; linarith
      simp [walkItems, h, hd, ih]

theorem insertSorted_nil (item : ScheduledIntervalItem) :
    insertSorted item [] = [item] := rfl

theorem insertSorted_cons_lt {item o : ScheduledIntervalItem}
    (rest : List ScheduledIntervalItem) (h : item.next_ts < o.next_ts) :
    insertSorted item (o :: rest) = item :: o :: rest := by
  simp [insertSorted, insertEarly, h]

theorem insertSorted_cons_le {item o : ScheduledIntervalItem}
    (rest : List ScheduledIntervalItem) (h : ¬ item.next_ts < o.next_ts) :
    insertSorted item (o :: rest) = o :: insertSorted item rest := by
  cases h2 : insertEarly item rest with
  | none => simp [insertSorted, insertEarly, if_neg h, h2]
  | some l2 => simp [insertSorted, insertEarly, if_neg h, h2]

theorem insertSorted_perm (item : ScheduledIntervalItem) (l : List ScheduledIntervalItem) :
    List.Perm (insertSorted item l) (item :: l) := by
  induction l with
  | nil => simp [insertSorted_nil]
  | cons o rest ih =>
    by_cases h : item.next_ts < o.next_ts
    · rw [insertSorted_cons_lt rest h]
    · rw [insertSorted_cons_le rest h]
      exact (ih.cons o).trans (List.Perm.swap item o rest)

theorem mem_insertSorted {x item : ScheduledIntervalItem} {l : List ScheduledIntervalItem} :
    x ∈ insertSorted item l ↔ x = item ∨ x ∈ l := by
  rw [(insertSorted_perm item l).mem_iff, List.mem_cons]

theorem insertSorted_eq_take_drop (item : ScheduledIntervalItem)
    (l : List ScheduledIntervalItem) :
    insertSorted item l =
      l.takeWhile (fun o => decide (o.next_ts ≤ item.next_ts)) ++
        item :: l.dropWhile (fun o => decide (o.next_ts ≤ item.next_ts)) := by
  induction l with
  | nil => simp [insertSorted_nil]
  | cons o rest ih =>
    by_cases h : item.next_ts < o.next_ts
    · have hp : ¬ o.next_ts ≤ item.next_ts := by linarith
      rw [insertSorted_cons_lt rest h]
      simp [hp]
    · have hp : o.next_ts ≤ item.next_ts := by linarith
      rw [insertSorted_cons_le rest h]
      simp [hp, ih]

theorem insertSorted_sorted {item : ScheduledIntervalItem} {l : List ScheduledIntervalItem}
    (h : SortedItems l) : SortedItems (insertSorted item l) := by
  induction l with
  | nil => simp [insertSorted_nil, SortedItems]
  | cons o rest ih =>
    rw [SortedItems, List.pairwise_cons] at h
    obtain ⟨ho, hrest⟩ := h
    by_cases hlt : item.next_ts < o.next_ts
    · rw [insertSorted_cons_lt rest hlt]
      refine List.Pairwise.cons ?_ (List.Pairwise.cons ho hrest)
      intro x hx
      rcases List.mem_cons.mp hx with rfl | hx
      · exact le_of_lt hlt
      · exact le_trans (le_of_lt hlt) (ho x hx)
    · rw [insertSorted_cons_le rest hlt]
      refine List.Pairwise.cons ?_ (ih hrest)
      intro x hx
      rcases mem_insertSorted.mp hx with rfl | hx
      · exact le_of_not_lt hlt
      · exact ho x hx

theorem sortByNextTs_sorted (l : List ScheduledIntervalItem) :
    SortedItems (sortByNextTs l) :=
  List.sorted_insertionSort leNext l

theorem sortByNextTs_perm (l : List ScheduledIntervalItem) :
    List.Perm (sortByNextTs l) l :=
  List.perm_insertionSort leNext l

/-! ### Claim C1 -/

/-- C1 (code bug): `unschedule` does not do what the claim (and the source
docstring) says.  (1) With a single interval/one-shot registration the call
raises `UnboundLocalError`: the source line `elif item in
self.schedule_interval_items` reads the never-assigned local `item` instead
of `items`.  (2) A registration inserted before an existing item takes the
early `return` in `schedule_item` and never reaches `schedule_functions`,
so `unschedule` silently removes nothing and the next tick still invokes
the callback. -/
theorem claim_C1_code_bug :
    Clock.unschedule (Clock.schedule_once (Clock.init 0 none) 0 1 0) 0 =
      Except.error "UnboundLocalError: local variable referenced before assignment" ∧
    Clock.unschedule c1clock 2 = Except.ok c1clock ∧
    (Clock.tick c1clock 7).intervalEvents.countP (fun e => e.func == 2) = 1 := by
  refine ⟨rfl, ?_, ?_⟩
  · norm_num [c1clock, Clock.unschedule, Clock.init, Clock.set_fps_limit, Clock.schedule_once,
      Clock.schedule_item, Clock.schedBaseline, newItem, insertEarly, addToIndex, lookupIndex,
      setIndex]
  · norm_num [c1clock, Clock.tick, Clock.init, Clock.set_fps_limit, Clock.schedule_once,
      Clock.schedule_item, Clock.schedBaseline, newItem, insertEarly, addToIndex, lookupIndex,
      setIndex, tickIntervals, walkItems, fireUpdate, mkIntervalEvent, sortByNextTs,
      List.insertionSort]

/-! ### Claim C2: set_fps_limit performs no validation -/

/-- C2 counterexample: a negative target rate is accepted silently.
`set_fps_limit(-60)` returns normally (the embedded function is total
because the source contains no validation or raise on this path) and
installs a negative period `-1/60`; `get_fps_limit` then reports `-60`.
The claim says the call must fail immediately with a configuration
error. -/
theorem claim_C2_cex :
    (Clock.set_fps_limit (Clock.init 0 none) (some (-60))).period_limit = some (-(1 / 60)) ∧
    (Clock.set_fps_limit (Clock.init 0 none) (some (-60))).window_size = -60 ∧
    Clock.get_fps_limit (Clock.set_fps_limit (Clock.init 0 none) (some (-60))) = -60 := by
  norm_num [Clock.init, Clock.set_fps_limit, Clock.get_fps_limit]

/-- C2 amended: `set_fps_limit` never raises; `None` and `0` disable
limiting (and set the averaging window to 60), while every other value
`r` — negative values included — is accepted, setting
`period_limit = 1/r` and `window_size = r`. -/
theorem claim_C2_amended (st : Clock) (r : ℚ) :
    (st.set_fps_limit (some r)).period_limit = (if r = 0 then none else some (1 / r)) ∧
    (st.set_fps_limit (some r)).window_size = (if r = 0 then 60 else r) ∧
    (st.set_fps_limit none).period_limit = none ∧
    (st.set_fps_limit none).window_size = 60 := by
  refine ⟨rfl, rfl, rfl, rfl⟩

/-! ### Claim C3: the drift-correction step of limit() -/

theorem busyPhase_nonpos (next_ts : ℚ) :
    ∀ (tr : List ℚ) (s st2 : ℚ) (tr2 : List ℚ),
      busyPhase next_ts tr s = some (st2, tr2) → st2 ≤ 0 := by
  intro tr
  induction tr with
  | nil =>
    intro s st2 tr2 h
    by_cases hs : s > 0 <;> simp [busyPhase, hs] at h
    rw [← h.1]
    linarith
  | cons t r ih =>
    intro s st2 tr2 h
    by_cases hs : s > 0 <;> simp [busyPhase, hs] at h
    · exact ih _ _ _ h
    · rw [← h.1]
      linarith

theorem limitRun_spec {p nts n2 stf ts0 : ℚ} {tr tr2 : List ℚ}
    (h : limitRun p nts tr = some (n2, stf, ts0, tr2)) :
    stf ≤ 0 ∧ tr.head? = some ts0 ∧
    n2 = (if stf < -2 * p then ts0 + 2 * p else nts + p) := by
  cases tr with
  | nil => simp [limitRun, readTime] at h
  | cons a tr1 =>
    cases tr1 with
    | nil =>
      rw [limitRun] at h
      simp only [readTime, Option.bind_eq_bind, Option.some_bind, Option.none_bind] at h
      exact absurd h (by simp)
    | cons b trr =>
      rw [limitRun] at h
      simp only [readTime, Option.bind_eq_bind, Option.some_bind] at h
      cases h3 : sleepPhase nts trr (nts - b) with
      | none => rw [h3] at h; simp at h
      | some tr3 =>
        rw [h3] at h
        simp only [Option.some_bind] at h
        cases tr3 with
        | nil => simp [readTime] at h
        | cons c tr4 =>
          simp only [readTime, Option.some_bind] at h
          cases h5 : busyPhase nts tr4 (nts - c) with
          | none => rw [h5] at h; simp at h
          | some out =>
            rw [h5] at h
            simp only [Option.some_bind, Option.some.injEq, Prod.mk.injEq] at h
            obtain ⟨h1, h2, h3a, h4⟩ := h
            subst h2 h3a
            refine ⟨busyPhase_nonpos nts tr4 (nts - c) _ _ h5, rfl, h1.symm⟩

/-- C3 counterexample: drive `limit` (target period `1/10`, `next_due_time
101`) with readings `100, 100` at entry, then a stall: the sleep loop's
next reading is `200` and the busy loop is entered with `sleeptime = -99`.
The overshoot past `next_due_time` is `99 > 2 * (1/10)`, and "now" — the
post-wait reading — is `200`, so the claim requires the reset
`next_due_time = 200 + 2 * (1/10)`.  The code instead resets relative to
the reading taken at the start of `limit()`: `100 + 2 * (1/10) = 501/5`. -/
theorem claim_C3_cex :
    limitRun (1 / 10) 101 [100, 100, 200, 200] = some (501 / 5, -99, 100, []) ∧
    2 * (1 / 10 : ℚ) < 99 ∧ (501 / 5 : ℚ) ≠ 200 + 2 * (1 / 10) := by
  norm_num [limitRun, readTime, sleepPhase, busyPhase, MIN_SLEEP, SLEEP_UNDERSHOOT]

/-- C3 amended: after the sleep and busy-wait phases the final `sleeptime`
is non-positive (`-sleeptime` is the overshoot past `next_due_time`); if
the overshoot exceeds `2 * period_limit` then `next_due_time` is reset to
`ts + 2 * period_limit` where `ts` is the reading taken at the *start* of
`limit()` (before any waiting — not the post-wait "now"); otherwise
`next_due_time` advances by exactly one `period_limit`. -/
theorem claim_C3_amended {p nts n2 stf ts0 : ℚ} {tr tr2 : List ℚ}
    (h : limitRun p nts tr = some (n2, stf, ts0, tr2)) :
    stf ≤ 0 ∧ tr.head? = some ts0 ∧
    (2 * p < -stf → n2 = ts0 + 2 * p) ∧
    (-stf ≤ 2 * p → n2 = nts + p) := by
  obtain ⟨h1, h2, h3⟩ := limitRun_spec h
  refine ⟨h1, h2, ?_, ?_⟩
  · intro hgt
    rw [h3, if_pos (by linarith)]
  · intro hle
    rw [h3, if_neg (by linarith)]

/-- Witness for C3 amended at the concrete stall trace of the
counterexample. -/
theorem claim_C3_amended_witness :
    (-99 : ℚ) ≤ 0 ∧ ([100, 100, 200, 200] : List ℚ).head? = some 100 ∧
    (2 * (1 / 10 : ℚ) < -(-99 : ℚ) → (501 / 5 : ℚ) = 100 + 2 * (1 / 10)) ∧
    (-(-99 : ℚ) ≤ 2 * (1 / 10 : ℚ) → (501 / 5 : ℚ) = 101 + 1 / 10) :=
  @claim_C3_amended (1 / 10) 101 (501 / 5) (-99) 100 [100, 100, 200, 200] []
    (by norm_num [limitRun, readTime, sleepPhase, busyPhase, MIN_SLEEP, SLEEP_UNDERSHOOT])

/-! ### Claim C9: the scheduling baseline -/

theorem schedule_item_items (st : Clock) (f : Nat) (i : ℚ) (rep : Bool) (a : Nat) :
    (Clock.schedule_item st f i rep a).schedule_interval_items =
      insertSorted (newItem st f i rep a) st.schedule_interval_items := by
  cases h : insertEarly (newItem st f i rep a) st.schedule_interval_items with
  | none => simp only [Clock.schedule_item, insertSorted, h]
  | some l2 => simp only [Clock.schedule_item, insertSorted, h]

/-- C9 counterexample: construct a clock whose initial anchor reading is
`5`, tick it once at timestamp `0`, then `schedule_once(f, 3)`.  A tick
has occurred (`last_ts = some 0`), so the claim requires the due time
`0 + 3 = 3`; but `last_ts or next_ts` treats the timestamp `0` as absent
(Python falsy) and the item is scheduled at `5 + 3 = 8`. -/
theorem claim_C9_cex :
    (Clock.tick (Clock.init 5 none) 0).state.last_ts = some 0 ∧
    (Clock.schedule_once (Clock.tick (Clock.init 5 none) 0).state 0 3 0).schedule_interval_items.map
      (fun it => it.next_ts) = [8] ∧
    (8 : ℚ) ≠ 0 + 3 := by
  refine ⟨rfl, ?_, by norm_num⟩
  norm_num [Clock.tick, Clock.init, Clock.set_fps_limit, Clock.schedule_once,
    Clock.schedule_item, Clock.schedBaseline, newItem, insertEarly, tickIntervals, walkItems,
    sortByNextTs, List.insertionSort]

/-- C9 amended: `schedule_once(f, d)` registers an item with
`next_fire_time = b + d` and `last_fire_time = b` where the baseline `b`
is the last completed tick's timestamp when one exists *and is non-zero*;
when no tick has occurred — or the last tick's timestamp is exactly `0`
(Python truthiness of `self.last_ts or self.next_ts`) — the baseline is
the clock's current `next_ts` anchor (the construction-time reading on a
clock whose rate limiter never ran). -/
theorem claim_C9_amended (st : Clock) (f : Nat) (d : ℚ) (a : Nat) :
    (st.schedBaseline = (match st.last_ts with
      | none => st.next_ts
      | some l => if l = 0 then st.next_ts else l)) ∧
    ∃ it ∈ (Clock.schedule_once st f d a).schedule_interval_items,
      it.uid = st.uid_counter ∧ it.func = f ∧ it.interval = 0 ∧
      it.last_ts = st.schedBaseline ∧ it.next_ts = st.schedBaseline + d := by
  refine ⟨rfl, newItem st f d false a, ?_, rfl, rfl, rfl, rfl, rfl⟩
  rw [Clock.schedule_once, schedule_item_items]
  exact mem_insertSorted.mpr (Or.inl rfl)

/-! ### Lemmas connecting tick to the interval dispatch -/

theorem walkItems_fst (ts : ℚ) (l : List ScheduledIntervalItem) :
    (walkItems ts l).1 =
      (l.takeWhile (isDue ts)).map (fireUpdate ts) ++ l.dropWhile (isDue ts) := by
  rw [walkItems_eq]

theorem walkItems_snd (ts : ℚ) (l : List ScheduledIntervalItem) :
    (walkItems ts l).2.1 = (l.takeWhile (isDue ts)).map (mkIntervalEvent ts) := by
  rw [walkItems_eq]

theorem walkItems_flag (ts : ℚ) (l : List ScheduledIntervalItem) :
    (walkItems ts l).2.2 =
      (l.takeWhile (isDue ts)).any (fun it => decide (it.interval ≠ 0)) := by
  rw [walkItems_eq]

theorem tick_intervalEvents (st : Clock) (ts : ℚ) :
    (Clock.tick st ts).intervalEvents = (tickIntervals ts st.schedule_interval_items).2 := by
  cases h : st.last_ts <;> simp [Clock.tick, h]

theorem tick_state_items (st : Clock) (ts : ℚ) :
    (Clock.tick st ts).state.schedule_interval_items =
      (tickIntervals ts st.schedule_interval_items).1 := by
  cases h : st.last_ts <;> simp [Clock.tick, h]

theorem tickIntervals_snd (ts : ℚ) (l : List ScheduledIntervalItem) :
    (tickIntervals ts l).2 = (l.takeWhile (isDue ts)).map (mkIntervalEvent ts) := by
  simp [tickIntervals, walkItems_eq]

theorem tickIntervals_fst_of_flag_false {ts : ℚ} {l : List ScheduledIntervalItem}
    (hb : (walkItems ts l).2.2 = false) :
    (tickIntervals ts l).1 =
      (walkItems ts l).1.filter (fun it => decide (ts < it.next_ts)) := by
  simp [tickIntervals, hb]

theorem tickIntervals_fst_of_flag_true {ts : ℚ} {l : List ScheduledIntervalItem}
    (hb : (walkItems ts l).2.2 = true) :
    (tickIntervals ts l).1 =
      sortByNextTs ((walkItems ts l).1.filter (fun it => decide (ts < it.next_ts))) := by
  simp [tickIntervals, hb]

theorem mem_tickIntervals_fst {ts : ℚ} {l : List ScheduledIntervalItem}
    {it2 : ScheduledIntervalItem} :
    it2 ∈ (tickIntervals ts l).1 ↔
      it2 ∈ ((l.takeWhile (isDue ts)).map (fireUpdate ts) ++
        l.dropWhile (isDue ts)).filter (fun it => decide (ts < it.next_ts)) := by
  cases hb : (walkItems ts l).2.2
  · rw [tickIntervals_fst_of_flag_false hb, walkItems_fst]
  · rw [tickIntervals_fst_of_flag_true hb, (sortByNextTs_perm _).mem_iff, walkItems_fst]

theorem tickIntervals_mem_lt {ts : ℚ} {l : List ScheduledIntervalItem}
    {it2 : ScheduledIntervalItem} (hm : it2 ∈ (tickIntervals ts l).1) :
    ts < it2.next_ts := by
  have h2 := (List.mem_filter.mp (mem_tickIntervals_fst.mp hm)).2
  exact of_decide_eq_true h2

theorem mem_takeWhile_of_sorted {ts : ℚ} {l : List ScheduledIntervalItem}
    (hs : SortedItems l) {it : ScheduledIntervalItem} (hm : it ∈ l)
    (hd : it.next_ts ≤ ts) : it ∈ l.takeWhile (isDue ts) := by
  induction l with
  | nil => cases hm
  | cons x rest ih =>
    rw [SortedItems, List.pairwise_cons] at hs
    obtain ⟨hx, hrest⟩ := hs
    rcases List.mem_cons.mp hm with rfl | hm2
    · have hdu : isDue ts it = true := by simp [isDue, hd]
      simp [List.takeWhile_cons, hdu]
    · have hxd : x.next_ts ≤ ts := le_trans (hx it hm2) hd
      have hdu : isDue ts x = true := by simp [isDue, hxd]
      rw [List.takeWhile_cons, if_pos hdu]
      exact List.mem_cons_of_mem x (ih hrest hm2)

theorem fireUpdate_uid (ts : ℚ) (it : ScheduledIntervalItem) :
    (fireUpdate ts it).uid = it.uid := by
  unfold fireUpdate
  by_cases h : it.interval ≠ 0 <;> simp [h]

theorem fireUpdate_of_repeat {ts : ℚ} {it : ScheduledIntervalItem} (h : it.interval ≠ 0) :
    (fireUpdate ts it).last_ts = ts ∧
    (fireUpdate ts it).next_ts = max (it.next_ts + it.interval) (ts + 1 / 100) := by
  simp [fireUpdate, h]

theorem fireUpdate_of_oneshot {ts : ℚ} {it : ScheduledIntervalItem} (h : it.interval = 0) :
    fireUpdate ts it = it := by
  simp [fireUpdate, h]

theorem walk1_of_no_repeat {ts : ℚ} {l : List ScheduledIntervalItem}
    (hb : (l.takeWhile (isDue ts)).any (fun it => decide (it.interval ≠ 0)) = false) :
    (walkItems ts l).1 = l := by
  simp only [List.any_eq_false, decide_eq_true_eq, not_not] at hb
  have hmap : (l.takeWhile (isDue ts)).map (fireUpdate ts) = l.takeWhile (isDue ts) :=
    calc (l.takeWhile (isDue ts)).map (fireUpdate ts)
        = (l.takeWhile (isDue ts)).map id :=
          List.map_congr_left (fun x hx => by rw [fireUpdate_of_oneshot (hb x hx)]; rfl)
      _ = l.takeWhile (isDue ts) := List.map_id _
  rw [walkItems_fst, hmap]
  exact List.takeWhile_append_dropWhile (isDue ts) l

theorem tickIntervals_sorted {ts : ℚ} {l : List ScheduledIntervalItem}
    (h : SortedItems l) : SortedItems (tickIntervals ts l).1 := by
  cases hb : (walkItems ts l).2.2
  · rw [tickIntervals_fst_of_flag_false hb,
      walk1_of_no_repeat (by rw [← walkItems_flag]; exact hb)]
    exact List.Pairwise.filter _ h
  · rw [tickIntervals_fst_of_flag_true hb]
    exact sortByNextTs_sorted _

theorem tick_sorted {st : Clock} {ts : ℚ} (h : SortedItems st.schedule_interval_items) :
    SortedItems (Clock.tick st ts).state.schedule_interval_items := by
  rw [tick_state_items]
  exact tickIntervals_sorted h

theorem schedule_item_sorted {st : Clock} (f : Nat) (i : ℚ) (rep : Bool) (a : Nat)
    (h : SortedItems st.schedule_interval_items) :
    SortedItems (Clock.schedule_item st f i rep a).schedule_interval_items := by
  rw [schedule_item_items]
  exact insertSorted_sorted h

/-! ### Stability of the re-sort -/

theorem filter_key_orderedInsert (x : ScheduledIntervalItem)
    (l : List ScheduledIntervalItem) (k : ℚ) :
    (List.orderedInsert leNext x l).filter (fun it => decide (it.next_ts = k)) =
      if x.next_ts = k then x :: l.filter (fun it => decide (it.next_ts = k))
      else l.filter (fun it => decide (it.next_ts = k)) := by
  induction l with
  | nil => by_cases hx : x.next_ts = k <;> simp [List.orderedInsert, hx]
  | cons y rest ih =>
    by_cases hle : leNext x y
    · by_cases hx : x.next_ts = k <;>
        by_cases hy : y.next_ts = k <;> simp [List.orderedInsert, hle, hx, hy]
    · by_cases hx : x.next_ts = k
      · have hy : ¬ y.next_ts = k := by
          intro hy
          exact hle (le_of_eq (by rw [hy, hx]))
        simp [List.orderedInsert, hle, hx, hy, ih]
      · by_cases hy : y.next_ts = k <;> simp [List.orderedInsert, hle, hx, hy, ih]

theorem filter_key_sortByNextTs (l : List ScheduledIntervalItem) (k : ℚ) :
    (sortByNextTs l).filter (fun it => decide (it.next_ts = k)) =
      l.filter (fun it => decide (it.next_ts = k)) := by
  induction l with
  | nil => rfl
  | cons x rest ih =>
    have ih2 : (List.insertionSort leNext rest).filter (fun it => decide (it.next_ts = k)) =
        rest.filter (fun it => decide (it.next_ts = k)) := ih
    rw [sortByNextTs, List.insertionSort, filter_key_orderedInsert]
    by_cases hx : x.next_ts = k <;> simp [hx, ih2, List.filter_cons]

/-! ### Claims C4, C10, C5 -/

/-- C4: during a tick at reading `ts`, with the interval collection in
ascending `next_fire_time` order: the recorded firings are exactly the
front prefix of due items (`next_fire_time ≤ ts`), so iteration stops at
the first future item; an item fires iff it is due; each firing passes
`dt = ts - item.last_fire_time` (the item's own elapsed time); and a
fired repeating item is updated in place to `last_fire_time = ts` and
`next_fire_time = max(old_next_fire_time + interval, ts + 1/100)` (the
`0.01` epsilon of the source). -/
theorem claim_C4_interval_dispatch (st : Clock) (ts : ℚ)
    (h : SortedItems st.schedule_interval_items) :
    (Clock.tick st ts).intervalEvents =
      (st.schedule_interval_items.takeWhile (isDue ts)).map (mkIntervalEvent ts) ∧
    (∀ it ∈ st.schedule_interval_items,
      (it.next_ts ≤ ts ↔ it ∈ st.schedule_interval_items.takeWhile (isDue ts))) ∧
    (walkItems ts st.schedule_interval_items).1 =
      (st.schedule_interval_items.takeWhile (isDue ts)).map (fireUpdate ts) ++
        st.schedule_interval_items.dropWhile (isDue ts) ∧
    (∀ it : ScheduledIntervalItem,
      mkIntervalEvent ts it = { uid := it.uid, func := it.func, dt := ts - it.last_ts }) ∧
    (∀ it : ScheduledIntervalItem, it.interval ≠ 0 →
      (fireUpdate ts it).last_ts = ts ∧
      (fireUpdate ts it).next_ts = max (it.next_ts + it.interval) (ts + 1 / 100)) := by
  refine ⟨by rw [tick_intervalEvents, tickIntervals_snd], ?_, walkItems_fst ts _,
    fun it => rfl, fun it hi => fireUpdate_of_repeat hi⟩
  intro it hm
  constructor
  · exact fun hd => mem_takeWhile_of_sorted h hm hd
  · intro htw
    exact (isDue_iff ts it).mp (List.mem_takeWhile_imp htw)

theorem sorted_after_first_schedule (f : Nat) (d : ℚ) (a : Nat) :
    SortedItems (Clock.schedule_once (Clock.init 0 none) f d a).schedule_interval_items := by
  rw [Clock.schedule_once, schedule_item_items]
  have he : (Clock.init 0 none).schedule_interval_items = [] := rfl
  rw [he, insertSorted_nil]
  simp [SortedItems]

/-- Witness for C4 on a clock holding one one-shot item due at 5, ticked
at 7. -/
theorem claim_C4_witness :
    (Clock.tick (Clock.schedule_once (Clock.init 0 none) 0 5 0) 7).intervalEvents =
      ((Clock.schedule_once (Clock.init 0 none) 0 5 0).schedule_interval_items.takeWhile
        (isDue 7)).map (mkIntervalEvent 7) ∧
    (∀ it ∈ (Clock.schedule_once (Clock.init 0 none) 0 5 0).schedule_interval_items,
      (it.next_ts ≤ 7 ↔
        it ∈ (Clock.schedule_once (Clock.init 0 none) 0 5 0).schedule_interval_items.takeWhile
          (isDue 7))) ∧
    (walkItems 7 (Clock.schedule_once (Clock.init 0 none) 0 5 0).schedule_interval_items).1 =
      ((Clock.schedule_once (Clock.init 0 none) 0 5 0).schedule_interval_items.takeWhile
        (isDue 7)).map (fireUpdate 7) ++
        (Clock.schedule_once (Clock.init 0 none) 0 5 0).schedule_interval_items.dropWhile
          (isDue 7) ∧
    (∀ it : ScheduledIntervalItem,
      mkIntervalEvent 7 it = { uid := it.uid, func := it.func, dt := 7 - it.last_ts }) ∧
    (∀ it : ScheduledIntervalItem, it.interval ≠ 0 →
      (fireUpdate 7 it).last_ts = 7 ∧
      (fireUpdate 7 it).next_ts = max (it.next_ts + it.interval) (7 + 1 / 100)) :=
  claim_C4_interval_dispatch (Clock.schedule_once (Clock.init 0 none) 0 5 0) 7
    (sorted_after_first_schedule 0 5 0)

/-- C10 (implicit invariant): letting `ts` be the reading a tick used,
every interval item remaining after the tick has `next_fire_time > ts`;
every fired repeating item survives with `next_fire_time ≥ ts + 1/100`;
and no item identity is invoked more often in one tick than it occurs in
the collection (in particular a unique item fires at most once per tick). -/
theorem claim_C10_no_stale_items (st : Clock) (ts : ℚ)
    (h : SortedItems st.schedule_interval_items) :
    (∀ it ∈ (Clock.tick st ts).state.schedule_interval_items, ts < it.next_ts) ∧
    (∀ it ∈ st.schedule_interval_items, it.next_ts ≤ ts → it.interval ≠ 0 →
      ∃ it2 ∈ (Clock.tick st ts).state.schedule_interval_items,
        it2.uid = it.uid ∧ ts + 1 / 100 ≤ it2.next_ts) ∧
    (∀ u : Nat, evCount u (Clock.tick st ts).intervalEvents ≤
      st.schedule_interval_items.countP (fun it2 => it2.uid == u)) := by
  refine ⟨?_, ?_, ?_⟩
  · intro it hm
    rw [tick_state_items] at hm
    exact tickIntervals_mem_lt hm
  · intro it hm hd hrep
    have htw := mem_takeWhile_of_sorted h hm hd
    have hnext : ts + 1 / 100 ≤ (fireUpdate ts it).next_ts := by
      rw [(fireUpdate_of_repeat hrep).2]
      exact le_max_right _ _
    refine ⟨fireUpdate ts it, ?_, fireUpdate_uid ts it, hnext⟩
    rw [tick_state_items]
    apply mem_tickIntervals_fst.mpr
    apply List.mem_filter.mpr
    refine ⟨List.mem_append_left _ (List.mem_map_of_mem _ htw), ?_⟩
    exact decide_eq_true (lt_of_lt_of_le (by linarith) hnext)
  · intro u
    rw [tick_intervalEvents, tickIntervals_snd, evCount, List.countP_map]
    have hc : ((fun e : IntervalEvent => e.uid == u) ∘ mkIntervalEvent ts) =
        (fun it2 : ScheduledIntervalItem => it2.uid == u) := rfl
    rw [hc]
    exact (List.takeWhile_sublist _).countP_le _

/-- Witness for C10 on a clock holding one one-shot item due at 5, ticked
at 7. -/
theorem claim_C10_witness :
    (∀ it ∈ (Clock.tick (Clock.schedule_once (Clock.init 0 none) 0 5 0) 7).state.schedule_interval_items,
      (7 : ℚ) < it.next_ts) ∧
    (∀ it ∈ (Clock.schedule_once (Clock.init 0 none) 0 5 0).schedule_interval_items,
      it.next_ts ≤ 7 → it.interval ≠ 0 →
      ∃ it2 ∈ (Clock.tick (Clock.schedule_once (Clock.init 0 none) 0 5 0) 7).state.schedule_interval_items,
        it2.uid = it.uid ∧ (7 : ℚ) + 1 / 100 ≤ it2.next_ts) ∧
    (∀ u : Nat,
      evCount u (Clock.tick (Clock.schedule_once (Clock.init 0 none) 0 5 0) 7).intervalEvents ≤
      (Clock.schedule_once (Clock.init 0 none) 0 5 0).schedule_interval_items.countP
        (fun it2 => it2.uid == u)) :=
  claim_C10_no_stale_items (Clock.schedule_once (Clock.init 0 none) 0 5 0) 7
    (sorted_after_first_schedule 0 5 0)

/-- C5: the ascending-`next_fire_time` invariant.  A new registration is
inserted directly at its sorted position (after any items with equal key:
stable with respect to registration order) without touching the rest;
`schedule_item` preserves sortedness; `tick` restores sortedness before
returning; and the re-sort used by `tick` is stable: for every key value
the subsequence of items with that `next_fire_time` is unchanged. -/
theorem claim_C5_sorted_invariant :
    (∀ (item : ScheduledIntervalItem) (l : List ScheduledIntervalItem),
      insertSorted item l =
        l.takeWhile (fun o => decide (o.next_ts ≤ item.next_ts)) ++
          item :: l.dropWhile (fun o => decide (o.next_ts ≤ item.next_ts))) ∧
    (∀ (st : Clock) (f : Nat) (i : ℚ) (rep : Bool) (a : Nat),
      (Clock.schedule_item st f i rep a).schedule_interval_items =
        insertSorted (newItem st f i rep a) st.schedule_interval_items) ∧
    (∀ (st : Clock) (f : Nat) (i : ℚ) (rep : Bool) (a : Nat),
      SortedItems st.schedule_interval_items →
      SortedItems (Clock.schedule_item st f i rep a).schedule_interval_items) ∧
    (∀ (st : Clock) (ts : ℚ), SortedItems st.schedule_interval_items →
      SortedItems (Clock.tick st ts).state.schedule_interval_items) ∧
    (∀ (l : List ScheduledIntervalItem) (k : ℚ),
      (sortByNextTs l).filter (fun it => decide (it.next_ts = k)) =
        l.filter (fun it => decide (it.next_ts = k))) :=
  ⟨insertSorted_eq_take_drop, schedule_item_items,
    fun _ f i rep a h => schedule_item_sorted f i rep a h,
    fun _ _ h => tick_sorted h, filter_key_sortByNextTs⟩

/-- Witness for C5: registering a second, earlier item keeps the collection
sorted, and a tick keeps it sorted. -/
theorem claim_C5_witness :
    SortedItems (Clock.schedule_item (Clock.schedule_once (Clock.init 0 none) 1 10 0)
      2 5 false 0).schedule_interval_items ∧
    SortedItems (Clock.tick (Clock.schedule_once (Clock.init 0 none) 0 5 0)
      7).state.schedule_interval_items :=
  ⟨claim_C5_sorted_invariant.2.2.1 (Clock.schedule_once (Clock.init 0 none) 1 10 0)
      2 5 false 0 (sorted_after_first_schedule 1 10 0),
    claim_C5_sorted_invariant.2.2.2.1 (Clock.schedule_once (Clock.init 0 none) 0 5 0)
      7 (sorted_after_first_schedule 0 5 0)⟩

/-! ### One-shot machinery: per-tick lemmas -/

theorem evCount_tick (st : Clock) (ts : ℚ) (u : Nat) :
    evCount u (Clock.tick st ts).intervalEvents =
      (st.schedule_interval_items.takeWhile (isDue ts)).countP (fun it => it.uid == u) := by
  rw [tick_intervalEvents, tickIntervals_snd, evCount, List.countP_map]
  rfl

theorem countP_uid_fireUpdate_map (ts : ℚ) (l : List ScheduledIntervalItem) (u : Nat) :
    (l.map (fireUpdate ts)).countP (fun it => it.uid == u) =
      l.countP (fun it => it.uid == u) := by
  rw [List.countP_map]
  have hc : ((fun it : ScheduledIntervalItem => it.uid == u) ∘ fireUpdate ts) =
      (fun it : ScheduledIntervalItem => it.uid == u) := by
    funext it
    simp [Function.comp, fireUpdate_uid]
  rw [hc]

theorem countP_uid_walk1 (ts : ℚ) (l : List ScheduledIntervalItem) (u : Nat) :
    (walkItems ts l).1.countP (fun it => it.uid == u) =
      l.countP (fun it => it.uid == u) := by
  rw [walkItems_fst, List.countP_append, countP_uid_fireUpdate_map]
  rw [← List.countP_append, List.takeWhile_append_dropWhile]

theorem countP_uid_tickIntervals_le (ts : ℚ) (l : List ScheduledIntervalItem) (u : Nat) :
    (tickIntervals ts l).1.countP (fun it => it.uid == u) ≤
      l.countP (fun it => it.uid == u) := by
  have hfil : ((walkItems ts l).1.filter
      (fun it => decide (ts < it.next_ts))).countP (fun it => it.uid == u) ≤
      l.countP (fun it => it.uid == u) := by
    rw [← countP_uid_walk1 ts l u]
    exact (List.filter_sublist _).countP_le _
  cases hb : (walkItems ts l).2.2
  · rw [tickIntervals_fst_of_flag_false hb]
    exact hfil
  · rw [tickIntervals_fst_of_flag_true hb, (sortByNextTs_perm _).countP_eq]
    exact hfil

theorem itemUids_eq_map (l : List ScheduledIntervalItem) :
    itemUids l = l.map (fun it => it.uid) := rfl

theorem uid_mem_iff_countP_pos (l : List ScheduledIntervalItem) (u : Nat) :
    u ∈ itemUids l ↔ 0 < l.countP (fun it => it.uid == u) := by
  rw [itemUids_eq_map, List.mem_map, List.countP_pos_iff]
  constructor
  · rintro ⟨it, hm, rfl⟩
    exact ⟨it, hm, by simp⟩
  · rintro ⟨it, hm, he⟩
    exact ⟨it, hm, (Nat.beq_eq ▸ by simpa using he)⟩

theorem countP_uid_one_of_inv {l : List ScheduledIntervalItem} {u : Nat}
    (hn : (itemUids l).Nodup) {it : ScheduledIntervalItem} (hm : it ∈ l)
    (hu : it.uid = u) : l.countP (fun it2 => it2.uid == u) = 1 := by
  have hcount : (itemUids l).count u = l.countP (fun it2 => it2.uid == u) := by
    rw [itemUids_eq_map, List.count, List.countP_map]
    rfl
  have hmem : u ∈ itemUids l := by
    rw [itemUids_eq_map, List.mem_map]
    exact ⟨it, hm, hu⟩
  have hle := List.nodup_iff_count_le_one.mp hn u
  have hge := List.count_pos_iff.mpr hmem
  omega

theorem uid_inj_of_nodup {l : List ScheduledIntervalItem}
    (hn : (itemUids l).Nodup) {x y : ScheduledIntervalItem} (hx : x ∈ l) (hy : y ∈ l)
    (he : x.uid = y.uid) : x = y :=
  List.inj_on_of_nodup_map (itemUids_eq_map l ▸ hn) hx hy he

theorem nodup_uids_tickIntervals {ts : ℚ} {l : List ScheduledIntervalItem}
    (hn : (itemUids l).Nodup) : (itemUids (tickIntervals ts l).1).Nodup := by
  have hwalk : itemUids (walkItems ts l).1 = itemUids l := by
    rw [walkItems_fst, itemUids_eq_map, List.map_append, List.map_map]
    have hc : ((fun it : ScheduledIntervalItem => it.uid) ∘ fireUpdate ts) =
        (fun it : ScheduledIntervalItem => it.uid) := by
      funext it
      simp [Function.comp, fireUpdate_uid]
    rw [hc, ← List.map_append, List.takeWhile_append_dropWhile]
    rfl
  have hfil : (itemUids ((walkItems ts l).1.filter
      (fun it => decide (ts < it.next_ts)))).Nodup := by
    have hsub : List.Sublist
        (itemUids ((walkItems ts l).1.filter (fun it => decide (ts < it.next_ts))))
        (itemUids (walkItems ts l).1) := by
      rw [itemUids_eq_map, itemUids_eq_map]
      exact ((walkItems ts l).1.filter_sublist).map _
    exact (hwalk ▸ hn).sublist hsub
  cases hb : (walkItems ts l).2.2
  · rw [tickIntervals_fst_of_flag_false hb]
    exact hfil
  · rw [tickIntervals_fst_of_flag_true hb]
    have hperm : List.Perm (itemUids (sortByNextTs ((walkItems ts l).1.filter
        (fun it => decide (ts < it.next_ts)))))
        (itemUids ((walkItems ts l).1.filter (fun it => decide (ts < it.next_ts)))) := by
      rw [itemUids_eq_map, itemUids_eq_map]
      exact (sortByNextTs_perm _).map _
    exact hperm.nodup_iff.mpr hfil

/-- If the one-shot item with identity `u` is due, the tick fires it exactly
once and removes it from the collection. -/
theorem tick_fires_oneshot {st : Clock} {u : Nat} {due ts : ℚ}
    (inv : OneShotInv st u due) (hd : due ≤ ts) :
    evCount u (Clock.tick st ts).intervalEvents = 1 ∧
    (Clock.tick st ts).state.schedule_interval_items.countP (fun it2 => it2.uid == u) = 0 := by
  obtain ⟨hs, hn, it0, hm0, hu0, hint0, hnext0⟩ := inv
  have hl1 : st.schedule_interval_items.countP (fun it2 => it2.uid == u) = 1 :=
    countP_uid_one_of_inv hn hm0 hu0
  have htw : it0 ∈ st.schedule_interval_items.takeWhile (isDue ts) :=
    mem_takeWhile_of_sorted hs hm0 (by rw [hnext0]; exact hd)
  have htw_le : (st.schedule_interval_items.takeWhile (isDue ts)).countP
      (fun it2 => it2.uid == u) ≤ 1 := by
    rw [← hl1]
    exact (List.takeWhile_sublist _).countP_le _
  have htw_pos : 0 < (st.schedule_interval_items.takeWhile (isDue ts)).countP
      (fun it2 => it2.uid == u) :=
    List.countP_pos_iff.mpr ⟨it0, htw, by simp [hu0]⟩
  constructor
  · rw [evCount_tick]
    omega
  · rw [tick_state_items, List.countP_eq_zero]
    intro it2 hm2
    simp only [beq_iff_eq]
    intro hu2
    have hlt : ts < it2.next_ts := tickIntervals_mem_lt hm2
    have hm2f := List.mem_filter.mp (mem_tickIntervals_fst.mp hm2)
    rcases List.mem_append.mp hm2f.1 with hmap | hdrop
    · obtain ⟨x, hxtw, hxe⟩ := List.mem_map.mp hmap
      have hx_mem : x ∈ st.schedule_interval_items :=
        List.takeWhile_sublist _ |>.mem hxtw
      have hx_uid : x.uid = u := by rw [← fireUpdate_uid ts x, hxe, hu2]
      have hx0 : x = it0 := uid_inj_of_nodup hn hx_mem hm0 (by rw [hx_uid, hu0])
      rw [hx0, fireUpdate_of_oneshot hint0] at hxe
      rw [← hxe, hnext0] at hlt
      linarith
    · -- it2 sits in the kept suffix, so uid u occurs both in the prefix and
      -- the suffix, contradicting multiplicity 1
      have hsplit : (st.schedule_interval_items.takeWhile (isDue ts)).countP
            (fun it2 => it2.uid == u) +
          (st.schedule_interval_items.dropWhile (isDue ts)).countP
            (fun it2 => it2.uid == u) = 1 := by
        rw [← List.countP_append, List.takeWhile_append_dropWhile]
        exact hl1
      have hdrop_pos : 0 < (st.schedule_interval_items.dropWhile (isDue ts)).countP
          (fun it2 => it2.uid == u) :=
        List.countP_pos_iff.mpr ⟨it2, hdrop, by simp [hu2]⟩
      omega

/-- If the one-shot item with identity `u` is not yet due, the tick does not
fire it and the invariant is preserved. -/
theorem tick_waits_oneshot {st : Clock} {u : Nat} {due ts : ℚ}
    (inv : OneShotInv st u due) (hw : ts < due) :
    evCount u (Clock.tick st ts).intervalEvents = 0 ∧
    OneShotInv (Clock.tick st ts).state u due := by
  obtain ⟨hs, hn, it0, hm0, hu0, hint0, hnext0⟩ := inv
  have hnodue : it0 ∉ st.schedule_interval_items.takeWhile (isDue ts) := by
    intro htw
    have := (isDue_iff ts it0).mp (List.mem_takeWhile_imp htw)
    rw [hnext0] at this
    linarith
  refine ⟨?_, tick_sorted hs, ?_, ?_⟩
  · rw [evCount_tick, List.countP_eq_zero]
    intro x hxtw
    simp only [beq_iff_eq]
    intro hxu
    have hx_mem : x ∈ st.schedule_interval_items :=
      List.takeWhile_sublist _ |>.mem hxtw
    have hx0 : x = it0 := uid_inj_of_nodup hn hx_mem hm0 (by rw [hxu, hu0])
    exact hnodue (hx0 ▸ hxtw)
  · rw [tick_state_items]
    exact nodup_uids_tickIntervals hn
  · refine ⟨it0, ?_, hu0, hint0, hnext0⟩
    rw [tick_state_items]
    apply mem_tickIntervals_fst.mpr
    apply List.mem_filter.mpr
    constructor
    · apply List.mem_append_right
      rcases (List.takeWhile_append_dropWhile (isDue ts)
          st.schedule_interval_items) ▸ hm0 with hmm
      rcases List.mem_append.mp hmm with htw | hdw
      · exact absurd htw hnodue
      · exact hdw
    · exact decide_eq_true (by rw [hnext0]; exact hw)

/-! ### One-shot machinery: run-level lemmas -/

theorem runTicks_cons (st : Clock) (ts : ℚ) (rest : List ℚ) :
    runTicks st (ts :: rest) =
      ((runTicks (Clock.tick st ts).state rest).1,
        (Clock.tick st ts).intervalEvents :: (runTicks (Clock.tick st ts).state rest).2) := rfl

theorem runTicks_absent {u : Nat} :
    ∀ (tss : List ℚ) (st : Clock),
      st.schedule_interval_items.countP (fun it => it.uid == u) = 0 →
      (runTicks st tss).2.map (evCount u) = tss.map (fun _ => 0) ∧
      (runTicks st tss).1.schedule_interval_items.countP (fun it => it.uid == u) = 0 := by
  intro tss
  induction tss with
  | nil => exact fun st h => ⟨rfl, h⟩
  | cons ts rest ih =>
    intro st h
    have hev : evCount u (Clock.tick st ts).intervalEvents = 0 := by
      rw [evCount_tick, List.countP_eq_zero]
      exact fun x hx => List.countP_eq_zero.mp h x (List.takeWhile_sublist _ |>.mem hx)
    have hst : (Clock.tick st ts).state.schedule_interval_items.countP
        (fun it => it.uid == u) = 0 := by
      rw [tick_state_items]
      have := countP_uid_tickIntervals_le ts st.schedule_interval_items u
      omega
    obtain ⟨ih1, ih2⟩ := ih (Clock.tick st ts).state hst
    rw [runTicks_cons]
    exact ⟨by simp [hev, ih1], ih2⟩

theorem runTicks_oneshot {u : Nat} {due : ℚ} :
    ∀ (tss : List ℚ) (st : Clock), OneShotInv st u due →
      (runTicks st tss).2.map (evCount u) = oneShotFiringPattern due tss ∧
      (u ∈ itemUids (runTicks st tss).1.schedule_interval_items ↔ ∀ ts ∈ tss, ts < due) := by
  intro tss
  induction tss with
  | nil =>
    intro st inv
    obtain ⟨hs, hn, it0, hm0, hu0, _, _⟩ := inv
    refine ⟨rfl, iff_of_true ?_ (fun ts h => absurd h (List.not_mem_nil ts))⟩
    rw [itemUids_eq_map, List.mem_map]
    exact ⟨it0, hm0, hu0⟩
  | cons ts rest ih =>
    intro st inv
    rw [runTicks_cons]
    have hunf : oneShotFiringPattern due (ts :: rest) =
        if due ≤ ts then 1 :: rest.map (fun _ => 0)
        else 0 :: oneShotFiringPattern due rest := rfl
    by_cases hd : due ≤ ts
    · obtain ⟨hev, hst⟩ := tick_fires_oneshot inv hd
      obtain ⟨ha1, ha2⟩ := runTicks_absent rest (Clock.tick st ts).state hst
      constructor
      · rw [hunf, if_pos hd]
        simp [hev, ha1]
      · have hnotmem : u ∉ itemUids
            (runTicks (Clock.tick st ts).state rest).1.schedule_interval_items := by
          rw [uid_mem_iff_countP_pos]
          omega
        refine iff_of_false hnotmem ?_
        intro hall
        exact absurd (hall ts (List.mem_cons_self ts rest)) (by linarith)
    · have hw : ts < due := lt_of_not_le hd
      obtain ⟨hev, inv2⟩ := tick_waits_oneshot inv hw
      obtain ⟨ih1, ih2⟩ := ih (Clock.tick st ts).state inv2
      constructor
      · rw [hunf, if_neg hd]
        simp [hev, ih1]
      · rw [ih2]
        constructor
        · intro hall ts2 hm2
          rcases List.mem_cons.mp hm2 with rfl | hm2
          · exact hw
          · exact hall ts2 hm2
        · intro hall ts2 hm2
          exact hall ts2 (List.mem_cons_of_mem ts hm2)

theorem oneShotInv_schedule_item (st : Clock) (f : Nat) (i : ℚ) (rep : Bool) (a : Nat)
    (hi : (if rep then i else 0) = 0)
    (hs : SortedItems st.schedule_interval_items)
    (hn : (itemUids st.schedule_interval_items).Nodup)
    (hf : st.uid_counter ∉ itemUids st.schedule_interval_items) :
    OneShotInv (Clock.schedule_item st f i rep a) st.uid_counter (st.schedBaseline + i) := by
  refine ⟨schedule_item_sorted f i rep a hs, ?_, ?_⟩
  · rw [schedule_item_items]
    have hperm : List.Perm
        (itemUids (insertSorted (newItem st f i rep a) st.schedule_interval_items))
        ((newItem st f i rep a).uid :: itemUids st.schedule_interval_items) := by
      rw [itemUids_eq_map, itemUids_eq_map]
      exact (insertSorted_perm _ _).map _
    rw [hperm.nodup_iff]
    exact List.nodup_cons.mpr ⟨hf, hn⟩
  · refine ⟨newItem st f i rep a, ?_, rfl, hi, rfl⟩
    rw [schedule_item_items]
    exact mem_insertSorted.mpr (Or.inl rfl)

/-! ### Claims C6 and C8 -/

/-- C6: a `schedule_once(f, d)` registration fires exactly once: driving the
clock through any sequence of tick readings, the new item's per-tick
invocation counts are `1` at the first tick whose reading is `≥ baseline + d`
and `0` at every other tick (so never again after firing, and not at all if
no tick reaches the due time); and the item remains in the collection
afterwards iff no tick reached its due time — it is removed during the tick
in which it fired. -/
theorem claim_C6_one_shot_fires_exactly_once (st : Clock) (f : Nat) (d : ℚ) (a : Nat)
    (tss : List ℚ)
    (hs : SortedItems st.schedule_interval_items)
    (hn : (itemUids st.schedule_interval_items).Nodup)
    (hf : st.uid_counter ∉ itemUids st.schedule_interval_items) :
    (runTicks (Clock.schedule_once st f d a) tss).2.map (evCount st.uid_counter) =
      oneShotFiringPattern (st.schedBaseline + d) tss ∧
    (st.uid_counter ∈ itemUids
        (runTicks (Clock.schedule_once st f d a) tss).1.schedule_interval_items ↔
      ∀ ts ∈ tss, ts < st.schedBaseline + d) :=
  runTicks_oneshot tss _ (oneShotInv_schedule_item st f d false a rfl hs hn hf)

/-- Witness for C6: item due at 5, readings 1, 4, 6, 8 — the invocation
pattern is `[0, 0, 1, 0]` and the item is gone afterwards. -/
theorem claim_C6_witness :
    (runTicks (Clock.schedule_once (Clock.init 0 none) 0 5 0) [1, 4, 6, 8]).2.map
      (evCount (Clock.init 0 none).uid_counter) =
      oneShotFiringPattern ((Clock.init 0 none).schedBaseline + 5) [1, 4, 6, 8] ∧
    ((Clock.init 0 none).uid_counter ∈ itemUids
        (runTicks (Clock.schedule_once (Clock.init 0 none) 0 5 0)
          [1, 4, 6, 8]).1.schedule_interval_items ↔
      ∀ ts ∈ ([1, 4, 6, 8] : List ℚ), ts < (Clock.init 0 none).schedBaseline + 5) :=
  claim_C6_one_shot_fires_exactly_once (Clock.init 0 none) 0 5 0 [1, 4, 6, 8]
    List.Pairwise.nil List.nodup_nil (List.not_mem_nil _)

/-- C8: `schedule_interval(f, 0)` produces the very same clock state as
`schedule_once(f, 0)` (the `if item.interval:` rescheduling test treats the
interval `0` as "do not repeat"), and over any run of ticks the item fires
at most once — exactly at the first tick reaching the baseline — and is
then removed, never firing on every tick. -/
theorem claim_C8_interval_zero_is_one_shot (st : Clock) (f : Nat) (a : Nat) (tss : List ℚ)
    (hs : SortedItems st.schedule_interval_items)
    (hn : (itemUids st.schedule_interval_items).Nodup)
    (hf : st.uid_counter ∉ itemUids st.schedule_interval_items) :
    Clock.schedule_interval st f 0 a = Clock.schedule_once st f 0 a ∧
    (runTicks (Clock.schedule_interval st f 0 a) tss).2.map (evCount st.uid_counter) =
      oneShotFiringPattern (st.schedBaseline + 0) tss ∧
    (st.uid_counter ∈ itemUids
        (runTicks (Clock.schedule_interval st f 0 a) tss).1.schedule_interval_items ↔
      ∀ ts ∈ tss, ts < st.schedBaseline + 0) := by
  have h := runTicks_oneshot tss _ (oneShotInv_schedule_item st f 0 true a rfl hs hn hf)
  exact ⟨rfl, h.1, h.2⟩

/-- Witness for C8: interval 0 scheduled on a fresh clock (due at the
baseline 0), readings 0 and 3 — fires once at the first tick, not on every
tick, and is removed. -/
theorem claim_C8_witness :
    Clock.schedule_interval (Clock.init 0 none) 0 0 0 =
      Clock.schedule_once (Clock.init 0 none) 0 0 0 ∧
    (runTicks (Clock.schedule_interval (Clock.init 0 none) 0 0 0) [0, 3]).2.map
      (evCount (Clock.init 0 none).uid_counter) =
      oneShotFiringPattern ((Clock.init 0 none).schedBaseline + 0) [0, 3] ∧
    ((Clock.init 0 none).uid_counter ∈ itemUids
        (runTicks (Clock.schedule_interval (Clock.init 0 none) 0 0 0)
          [0, 3]).1.schedule_interval_items ↔
      ∀ ts ∈ ([0, 3] : List ℚ), ts < (Clock.init 0 none).schedBaseline + 0) :=
  claim_C8_interval_zero_is_one_shot (Clock.init 0 none) 0 0 [0, 3]
    List.Pairwise.nil List.nodup_nil (List.not_mem_nil _)

/-! ### FPS window machinery (C7) -/

theorem rawDeltas_concat :
    ∀ (c : List ℚ) (a ts : ℚ), c.getLast? = some a →
      rawDeltas (c ++ [ts]) = rawDeltas c ++ [ts - a] := by
  intro c
  induction c with
  | nil =>
    intro a ts h
    simp at h
  | cons x rest ih =>
    intro a ts h
    cases rest with
    | nil =>
      have hax : a = x := by
        simp [List.getLast?] at h
        exact h.symm
      subst hax
      simp [rawDeltas]
    | cons y rest2 =>
      have hlast : (y :: rest2).getLast? = some a := by
        rw [← List.getLast?_cons_cons (a := x)]
        exact h
      have hih := ih a ts hlast
      show (y - x) :: rawDeltas ((y :: rest2) ++ [ts]) =
        ((y - x) :: rawDeltas (y :: rest2)) ++ [ts - a]
      rw [hih]
      simp

theorem windowSpec_concat {c : List ℚ} {a : ℚ} (h : c.getLast? = some a)
    (ts : ℚ) (W : Nat) :
    windowSpec W (c ++ [ts]) = ((ts - a) :: (rawDeltas c).reverse).take W := by
  rw [windowSpec, rawDeltas_concat c a ts h, List.reverse_append]
  rfl

theorem take_succ_dropLast (l : List ℚ) (n : Nat) (h : n < l.length) :
    (l.take (n + 1)).dropLast = l.take n := by
  rw [List.dropLast_eq_take, List.take_take, List.length_take]
  congr 1
  omega

theorem sum_eq_dropLast_add_getLastD (x : List ℚ) (hx : x ≠ []) :
    x.sum = x.dropLast.sum + x.getLastD 0 := by
  obtain ⟨g, hg⟩ : ∃ g, x.getLast? = some g := by
    cases he : x.getLast? with
    | none => exact absurd (List.getLast?_eq_none_iff.mp he) hx
    | some g => exact ⟨g, rfl⟩
  have hsplit : x.dropLast ++ [g] = x := List.dropLast_append_getLast? g hg
  calc x.sum = (x.dropLast ++ [g]).sum := by rw [hsplit]
    _ = x.dropLast.sum + g := by simp
    _ = x.dropLast.sum + x.getLastD 0 := by rw [List.getLastD_eq_getLast?, hg]; rfl

theorem tick_state_last (st : Clock) (ts : ℚ) :
    (Clock.tick st ts).state.last_ts = some ts := by
  cases h : st.last_ts <;> simp [Clock.tick, h]

theorem tick_state_ws (st : Clock) (ts : ℚ) :
    (Clock.tick st ts).state.window_size = st.window_size := by
  cases h : st.last_ts <;> simp [Clock.tick, h]

theorem tick_state_window_none {st : Clock} (ts : ℚ) (h : st.last_ts = none) :
    (Clock.tick st ts).state.times = st.times ∧
    (Clock.tick st ts).state.cumulative_time = st.cumulative_time + 0 := by
  refine ⟨?_, ?_⟩ <;> simp [Clock.tick, h]

theorem tick_state_window_some {st : Clock} {a : ℚ} (ts : ℚ) (h : st.last_ts = some a) :
    (Clock.tick st ts).state.times =
      (if st.window_size < (st.times.length : ℚ) + 1
        then ((ts - a) :: st.times).dropLast else (ts - a) :: st.times) ∧
    (Clock.tick st ts).state.cumulative_time =
      (if st.window_size < (st.times.length : ℚ) + 1
        then st.cumulative_time - ((ts - a) :: st.times).getLastD 0
        else st.cumulative_time) + (ts - a) := by
  by_cases hp : st.window_size < (st.times.length : ℚ) + 1 <;>
    refine ⟨?_, ?_⟩ <;> simp [Clock.tick, h, hp]

theorem windowInv_step {W : Nat} {c : List ℚ} {st : Clock}
    (inv : WindowInv W c st) (ts : ℚ) :
    WindowInv W (c ++ [ts]) (Clock.tick st ts).state := by
  obtain ⟨h1, h2, h3, h4⟩ := inv
  cases hc : c.getLast? with
  | none =>
    have hcnil : c = [] := List.getLast?_eq_none_iff.mp hc
    subst hcnil
    have hnone : st.last_ts = none := by rw [h3]; rfl
    obtain ⟨ht, hcum⟩ := tick_state_window_none ts hnone
    have hspec0 : windowSpec W ([] : List ℚ) = [] := by simp [windowSpec, rawDeltas]
    have hspec : windowSpec W ([] ++ [ts]) = [] := by simp [windowSpec, rawDeltas]
    refine ⟨?_, ?_, ?_, ?_⟩
    · rw [ht, h1, hspec, hspec0]
    · rw [hcum, h2, hspec, hspec0]
      simp
    · rw [tick_state_last]
      rfl
    · rw [tick_state_ws]
      exact h4
  | some a =>
    have hsome : st.last_ts = some a := by rw [h3, hc]
    obtain ⟨ht, hcum⟩ := tick_state_window_some ts hsome
    have hspec := windowSpec_concat hc ts W
    have hlen : st.times.length = min (rawDeltas c).reverse.length W := by
      rw [h1, windowSpec, List.length_take, Nat.min_comm]
    by_cases hp : st.window_size < (st.times.length : ℚ) + 1
    · -- pop branch: the window was full, i.e. W ≤ number of deltas
      have hWlen : W ≤ (rawDeltas c).reverse.length := by
        rw [h4] at hp
        by_contra hlt
        push_neg at hlt
        have hteq : st.times.length = (rawDeltas c).reverse.length := by omega
        rw [hteq] at hp
        have hcast : ((rawDeltas c).reverse.length : ℚ) + 1 ≤ (W : ℚ) := by
          exact_mod_cast Nat.succ_le_of_lt hlt
        linarith
      have htimes : (Clock.tick st ts).state.times =
          ((ts - a) :: (rawDeltas c).reverse).take W := by
        rw [ht, if_pos hp, h1, windowSpec]
        cases hW0 : W with
        | zero => simp
        | succ n =>
          have hlt : n + 1 < ((ts - a) :: (rawDeltas c).reverse).length := by
            simp only [List.length_cons]
            omega
          have hcons : (ts - a) :: (rawDeltas c).reverse.take (n + 1) =
              ((ts - a) :: (rawDeltas c).reverse).take (n + 2) := rfl
          rw [hcons, take_succ_dropLast _ (n + 1) hlt]
      refine ⟨by rw [htimes, hspec], ?_, by rw [tick_state_last, List.getLast?_concat],
        by rw [tick_state_ws]; exact h4⟩
      -- cumulative: both sides equal the sum of the new window
      have hne : ((ts - a) :: st.times) ≠ [] := List.cons_ne_nil _ _
      have hsum := sum_eq_dropLast_add_getLastD ((ts - a) :: st.times) hne
      have hdrop : ((ts - a) :: st.times).dropLast =
          ((ts - a) :: (rawDeltas c).reverse).take W := by
        rw [← htimes, ht, if_pos hp]
      rw [hcum, if_pos hp, hspec, ← hdrop]
      have hsum2 : ((ts - a) :: st.times).sum = (ts - a) + st.times.sum := by simp
      rw [h2, h1] at *
      linarith [hsum, hsum2]
    · -- no pop: the window still has room, W > number of deltas
      have hWlen : (rawDeltas c).reverse.length < W := by
        rw [h4] at hp
        push_neg at hp
        by_contra hge
        push_neg at hge
        have hteq : st.times.length = W := by omega
        rw [hteq] at hp
        linarith
      have hfull : st.times = (rawDeltas c).reverse := by
        rw [h1, windowSpec]
        exact List.take_of_length_le (le_of_lt hWlen)
      have htake : ((ts - a) :: (rawDeltas c).reverse).take W =
          (ts - a) :: (rawDeltas c).reverse :=
        List.take_of_length_le (by simp only [List.length_cons]; omega)
      have htimes : (Clock.tick st ts).state.times =
          ((ts - a) :: (rawDeltas c).reverse).take W := by
        rw [ht, if_neg hp, hfull, htake]
      refine ⟨by rw [htimes, hspec], ?_, by rw [tick_state_last, List.getLast?_concat],
        by rw [tick_state_ws]; exact h4⟩
      have hcumval : st.cumulative_time = (rawDeltas c).reverse.sum := by
        rw [h2, windowSpec, List.take_of_length_le (le_of_lt hWlen)]
      rw [hcum, if_neg hp, hspec, htake, hcumval]
      simp only [List.sum_cons]
      ring

theorem windowInv_run {W : Nat} :
    ∀ (tss : List ℚ) (c : List ℚ) (st : Clock),
      WindowInv W c st → WindowInv W (c ++ tss) (runTicks st tss).1 := by
  intro tss
  induction tss with
  | nil =>
    intro c st inv
    rw [List.append_nil]
    exact inv
  | cons ts rest ih =>
    intro c st inv
    rw [runTicks_cons]
    have hstep := windowInv_step inv ts
    have := ih (c ++ [ts]) (Clock.tick st ts).state hstep
    rwa [List.append_assoc, List.singleton_append] at this

/-! ### Claim C7 -/

/-- C7: after any run of `N` ticks (with the window size fixed by the
clock's configuration: the target rate, or 60 when unlimited), the state's
sliding window equals the independent recomputation `windowSpec` from the
raw per-tick delta sequence — the most recent `W` deltas; the incrementally
maintained `cumulative_time` equals the exact sum of the window contents;
`get_fps` returns `count / sum` of that recomputed window, and `0` when
the window is empty or the cumulative window time is exactly zero; and the
window never holds more than `W` entries. -/
theorem claim_C7_fps_window (t0 : ℚ) (fps : Option ℚ) (W : Nat) (tss : List ℚ)
    (hW : (Clock.init t0 fps).window_size = (W : ℚ)) :
    (runTicks (Clock.init t0 fps) tss).1.times = windowSpec W tss ∧
    (runTicks (Clock.init t0 fps) tss).1.cumulative_time = (windowSpec W tss).sum ∧
    Clock.get_fps (runTicks (Clock.init t0 fps) tss).1 =
      (if (windowSpec W tss).sum = 0 then 0
       else ((windowSpec W tss).length : ℚ) / (windowSpec W tss).sum) ∧
    (runTicks (Clock.init t0 fps) tss).1.times.length ≤ W := by
  have hspec0 : windowSpec W ([] : List ℚ) = [] := by simp [windowSpec, rawDeltas]
  have inv0 : WindowInv W [] (Clock.init t0 fps) := by
    refine ⟨?_, ?_, rfl, hW⟩
    · rw [hspec0]
      rfl
    · rw [hspec0]
      rfl
  have inv := windowInv_run tss [] _ inv0
  rw [List.nil_append] at inv
  obtain ⟨h1, h2, _, _⟩ := inv
  refine ⟨h1, h2, ?_, ?_⟩
  · rw [Clock.get_fps, h1, h2]
  · rw [h1, windowSpec]
    rw [List.length_take]
    omega

/-- Witness for C7: a fresh unlimited clock (window 60) ticked at 0, 1, 3:
the window is `[2, 1]`, the cumulative time 3, and `get_fps` is `2/3`. -/
theorem claim_C7_witness :
    (runTicks (Clock.init 0 none) [0, 1, 3]).1.times = windowSpec 60 [0, 1, 3] ∧
    (runTicks (Clock.init 0 none) [0, 1, 3]).1.cumulative_time =
      (windowSpec 60 [0, 1, 3]).sum ∧
    Clock.get_fps (runTicks (Clock.init 0 none) [0, 1, 3]).1 =
      (if (windowSpec 60 [0, 1, 3]).sum = 0 then 0
       else ((windowSpec 60 [0, 1, 3]).length : ℚ) / (windowSpec 60 [0, 1, 3]).sum) ∧
    (runTicks (Clock.init 0 none) [0, 1, 3]).1.times.length ≤ 60 :=
  claim_C7_fps_window 0 none 60 [0, 1, 3]
    (by norm_num [Clock.init, Clock.set_fps_limit])

end PygletClock
